import Mathlib

/-!
Shallow embedding of the `dexter` dispatch engine (`core/__init__.py`).

The engine's algorithmic content is:
  * `Dexter._to_letters` / `Dexter._parse_key_phrase`: key-phrase sanitisation;
  * `Dexter._list_index`: contiguous-sublist search (recursion on the sublist,
    an unbounded `while` loop over tentative start offsets);
  * `Dexter._handle`: key-phrase detection, service evaluation, belief-ranked
    handler execution, response accumulation with an exclusivity cut;
  * `Dexter._stop`: best-effort shutdown.

Python exceptions are modelled explicitly.  Note one peculiarity of the
source, kept faithfully: `_list_index` contains `raise ValuError(...)` on the
empty-sublist path; `ValuError` is an undefined name, so Python raises
`NameError` there, which `_handle`'s `except ValueError` does not catch.
-/

/-- The two exception outcomes `_list_index` can produce: a genuine
`ValueError` ("not in list"), and the `NameError` coming from the misspelled
`ValuError` on the empty-sublist branch. -/
inductive PyErr where
  | valueError
  | nameError
deriving DecidableEq

/-- Scan a list, returning the position (counted from `i`) of the first
element equal to `x`.  Helper for `pyIndex`. -/
def scanFrom [DecidableEq α] (x : α) : List α → Nat → Option Nat
  | [], _ => none
  | y :: ys, i => if y = x then some i else scanFrom x ys (i + 1)

/-- Python's `list.index(x, start)`: the least index `i ≥ start` with
`l[i] = x`, or `none` (Python: `ValueError`) when there is no such index. -/
def pyIndex [DecidableEq α] (l : List α) (x : α) (start : Nat) : Option Nat :=
  scanFrom x (l.drop start) start

mutual

/-- Fueled embedding of `Dexter._list_index(list, sublist, start)`.
`none` means the step budget ran out (used to state termination);
`some r` is the Python outcome: `Except.ok i` for a returned index,
`Except.error e` for a raised exception.  The branches mirror the source:
empty sublist raises (the misspelled `ValuError`, i.e. a `NameError`);
a singleton reduces to `list.index`; otherwise the `while` loop runs. -/
def list_indexF [DecidableEq α] : Nat → List α → List α → Nat → Option (Except PyErr Nat)
  | 0, _, _, _ => none
  | fuel + 1, l, sub, start =>
    match sub with
    | [] => some (Except.error PyErr.nameError)
    | [x] =>
      match pyIndex l x start with
      | some i => some (Except.ok i)
      | none => some (Except.error PyErr.valueError)
    | x :: y :: rest => searchLoopF fuel l x (y :: rest) start

/-- The `while True` loop of `_list_index` for a sublist `x :: rest` with
`rest ≠ []`: find `first`, the next occurrence of `x` at or after `offset`
(the recursive call on `sublist[:1]`); find `rest` from `first + 1` (the
recursive call on `sublist[1:]`); if adjacent, return `first`, else retry
from `first + 1`.  A `ValueError` from either recursive call is caught and
re-raised as a `ValueError`; any other exception propagates unchanged. -/
def searchLoopF [DecidableEq α] : Nat → List α → α → List α → Nat → Option (Except PyErr Nat)
  | 0, _, _, _, _ => none
  | fuel + 1, l, x, rest, offset =>
    match list_indexF fuel l [x] offset with
    | none => none
    | some (Except.error e) => some (Except.error e)
    | some (Except.ok first) =>
      match list_indexF fuel l rest (first + 1) with
      | none => none
      | some (Except.error e) => some (Except.error e)
      | some (Except.ok restIdx) =>
        if first + 1 = restIdx then some (Except.ok first)
        else searchLoopF fuel l x rest (first + 1)

end

/-- A step budget sufficient for `list_indexF` to complete (proved below). -/
def fuelFor (l sub : List α) : Nat :=
  (sub.length + 1) * (l.length + 3)

/-- `Dexter._list_index` as a total function: run the fueled embedding with
a sufficient budget.  (The default is never used: the budget suffices.) -/
def list_index [DecidableEq α] (l sub : List α) (start : Nat) : Except PyErr Nat :=
  (list_indexF (fuelFor l sub) l sub start).getD (Except.error PyErr.nameError)

/-- Specification-side predicate: the sublist `sub` occurs contiguously in
`l` starting at index `i` (exact element equality). -/
def matchesAt (l sub : List α) (i : Nat) : Prop :=
  (l.drop i).take sub.length = sub

instance [DecidableEq α] (l sub : List α) (i : Nat) : Decidable (matchesAt l sub i) :=
  inferInstanceAs (Decidable ((l.drop i).take sub.length = sub))

/-- Bounded linear scan for the first contiguous occurrence at index `≥ i`,
trying at most `b` start positions.  Helper for `findSub`. -/
def findSubAux [DecidableEq α] (l sub : List α) : Nat → Nat → Option Nat
  | 0, _ => none
  | b + 1, i => if matchesAt l sub i then some i else findSubAux l sub b (i + 1)

/-- Specification-side search: the least `i ≥ start` at which `sub` occurs
contiguously in `l`, if any. -/
def findSub [DecidableEq α] (l sub : List α) (start : Nat) : Option Nat :=
  findSubAux l sub (l.length + 1 - start) start

/-- The outcome `_list_index` should have according to the spec: the index of
the first contiguous occurrence at or after `start`, else a `ValueError`. -/
def listIndexSpec [DecidableEq α] (l sub : List α) (start : Nat) : Except PyErr Nat :=
  match findSub l sub start with
  | some i => Except.ok i
  | none => Except.error PyErr.valueError

deriving instance DecidableEq for Except

/-- Python's `str.lower()`, modelled as a character-wise map (the engine only
lowercases words already stripped to ASCII letters). -/
def pyLower (s : String) : String :=
  String.mk (s.data.map Char.toLower)

/-- `Dexter._to_letters`: keep exactly the characters whose lowercase form is
an ASCII letter between `a` and `z`. -/
def to_letters (w : String) : String :=
  String.mk (w.data.filter (fun c => decide ('a' ≤ c.toLower ∧ c.toLower ≤ 'z')))

/-- `Dexter._parse_key_phrase`: split on single spaces (`phrase.split(' ')`),
strip each word to letters, drop words that became empty, lowercase the
survivors. -/
def parse_key_phrase (phrase : String) : List String :=
  ((phrase.data.splitOn ' ').map String.mk).filterMap (fun w =>
    let w2 := to_letters w
    if w2 = "" then none else some (pyLower w2))

/-- A token from an input: the engine only reads its textual `element`. -/
structure Token where
  element : String
deriving DecidableEq

/-- The sanitised word the engine derives from a token in `_handle`:
`Dexter._to_letters(token.element).lower()`. -/
def wordOf (t : Token) : String :=
  pyLower (to_letters t.element)

/-- The word projection of a whole token batch. -/
def wordsOf (tokens : List Token) : List String :=
  tokens.map wordOf

/-- A `Result` returned by a handler: optional text and the exclusivity
flag. -/
structure HResult where
  text : Option String
  is_exclusive : Bool
deriving DecidableEq

/-- A `Handler` produced by a service's `evaluate`.  `hid` identifies the
handler in traces; `tokens` and `service` are the diagnostic attributes the
error log reports; `handleR` is the outcome of calling `handle()`:
`Except.error` models a raised exception, `Except.ok none` a `None` return. -/
structure Handler where
  hid : Nat
  belief : ℚ
  tokens : List Token
  service : String
  handleR : Except Unit (Option HResult)
deriving DecidableEq

/-- A `Service`: `evaluate` returns a handler when the service claims the
token slice.  `sid` identifies the service in traces. -/
structure Service where
  sid : Nat
  evaluate : List Token → Option Handler

/-- The fixed apology response of `_handle` when no service claims the
tokens. -/
def apologyString : String :=
  "I\x27m sorry, I don\x27t know how to help with that"

/-- The comparator implied by `sorted(handlers, cmp=lambda a, b:
cmp(b.belief, a.belief))`: `a` may precede `b` iff `b.belief ≤ a.belief`. -/
def beliefGE (a b : Handler) : Bool :=
  decide (b.belief ≤ a.belief)

/-- The belief ranking of `_handle`: Python's `sorted` is a stable merge
sort, modelled by `List.mergeSort` with the descending-belief comparator. -/
def rankHandlers (hs : List Handler) : List Handler :=
  hs.mergeSort beliefGE

/-- The key-phrase detection loop of `_handle`: for each configured phrase in
order, try `_list_index(words, key_phrase)`; on success replace the offset
with `index + len(key_phrase)`; a `ValueError` is passed over; the
`NameError` arising from an empty phrase propagates out of `_handle`. -/
def detectOffset : List (List String) → List String → Option Nat → Except PyErr (Option Nat)
  | [], _, acc => Except.ok acc
  | p :: ps, words, acc =>
    match list_index words p 0 with
    | Except.ok i => detectOffset ps words (some (i + p.length))
    | Except.error PyErr.valueError => detectOffset ps words acc
    | Except.error PyErr.nameError => Except.error PyErr.nameError

/-- The ranked-handler execution loop of `_handle`, instrumented: returns the
accumulated response, the `hid`s of the handlers whose `handle()` was
invoked (in invocation order), and the handlers whose `handle()` raised (the
logged errors, each carrying its `tokens` and `service`).  A raised
exception is caught and logged; a `None` result is skipped; a result's text
(when not `None`) is appended; an exclusive result breaks the loop. -/
def runHandlers : List Handler → String → String × List Nat × List Handler
  | [], resp => (resp, [], [])
  | h :: hs, resp =>
    match h.handleR with
    | Except.error _ =>
      let r := runHandlers hs resp
      (r.1, h.hid :: r.2.1, h :: r.2.2)
    | Except.ok none =>
      let r := runHandlers hs resp
      (r.1, h.hid :: r.2.1, r.2.2)
    | Except.ok (some res) =>
      let resp2 := match res.text with
        | some t => resp ++ t
        | none => resp
      if res.is_exclusive then (resp2, [h.hid], [])
      else
        let r := runHandlers hs resp2
        (r.1, h.hid :: r.2.1, r.2.2)

/-- The observable outcome of one `Dexter._handle` call.  `result` is the
returned response (or the exception that escaped); `forwarded` is the token
slice handed to the services (when detection succeeded); `evaluated` lists
the services whose `evaluate` was invoked, in order; `invoked` and `errors`
are the traces of the handler loop. -/
structure Outcome where
  result : Except PyErr (Option String)
  forwarded : Option (List Token)
  evaluated : List Nat
  invoked : List Nat
  errors : List Handler
deriving DecidableEq

/-- `Dexter._handle(tokens)`: `None` check, word projection, key-phrase
detection, early return on no match, service evaluation, apology when no
handler, belief ranking, handler execution, empty-response normalisation. -/
def handle (phrases : List (List String)) (services : List Service)
    (otokens : Option (List Token)) : Outcome :=
  match otokens with
  | none => ⟨Except.ok none, none, [], [], []⟩
  | some tokens =>
    match detectOffset phrases (wordsOf tokens) none with
    | Except.error e => ⟨Except.error e, none, [], [], []⟩
    | Except.ok none => ⟨Except.ok none, none, [], [], []⟩
    | Except.ok (some offset) =>
      let fwd := tokens.drop offset
      let handlers := services.filterMap (fun s => s.evaluate fwd)
      if handlers.length = 0 then
        ⟨Except.ok (some apologyString), some fwd, services.map Service.sid, [], []⟩
      else
        let ranked := rankHandlers handlers
        let r := runHandlers ranked ""
        ⟨Except.ok (if r.1.length > 0 then some r.1 else none),
         some fwd, services.map Service.sid, r.2.1, r.2.2⟩

/-- Specification-side detection (the spec's words): the last configured
phrase that occurs in the words wins; the offset is the index immediately
after the end of its first occurrence. -/
def specLastMatch (phrases : List (List String)) (words : List String) : Option Nat :=
  phrases.foldl
    (fun acc p =>
      match findSub words p 0 with
      | some i => some (i + p.length)
      | none => acc)
    none

/-- Specification-side cut of a ranked handler list: every handler up to and
including the first whose result declares itself exclusive is invoked;
later ones are not.  Raised exceptions and `None` results do not stop the
iteration. -/
def specCut : List Handler → List Handler
  | [] => []
  | h :: hs =>
    h ::
      match h.handleR with
      | Except.ok (some r) => if r.is_exclusive then [] else specCut hs
      | _ => specCut hs

/-- The text a single handler contributes to the response. -/
def specTextOf (h : Handler) : String :=
  match h.handleR with
  | Except.ok (some r) => r.text.getD ""
  | _ => ""

/-- Whether a handler's `handle()` raises. -/
def raisesB (h : Handler) : Bool :=
  match h.handleR with
  | Except.error _ => true
  | _ => false

/-- Specification-side accumulated response text of a ranked handler list:
the contributed texts concatenated in ranked order, stopping after the
first exclusive result. -/
def specResponse : List Handler → String
  | [] => ""
  | h :: hs =>
    match h.handleR with
    | Except.ok (some r) =>
      r.text.getD "" ++ (if r.is_exclusive then "" else specResponse hs)
    | _ => specResponse hs

/-- A component as seen by `Dexter._stop`: `stopR` is the outcome of its
`stop()` call (`Except.error` models a raised exception). -/
structure Comp where
  cid : Nat
  stopR : Except Unit Unit
deriving DecidableEq

/-- Whether a component's `stop()` raises. -/
def stopFails (c : Comp) : Bool :=
  match c.stopR with
  | Except.error _ => true
  | _ => false

/-- The loop of `Dexter._stop`, instrumented: returns the `cid`s of the
components whose `stop()` was invoked, in order, and the `cid`s of those
whose `stop()` raised (the logged failures).  Exceptions are caught and
logged, and the loop continues. -/
def stopAll : List Comp → List Nat × List Nat
  | [] => ([], [])
  | c :: cs =>
    let r := stopAll cs
    match c.stopR with
    | Except.ok _ => (c.cid :: r.1, r.2)
    | Except.error _ => (c.cid :: r.1, c.cid :: r.2)

/-- `Dexter._stop`: stop every component, inputs then outputs then
services. -/
def dexterStop (inputs outputs services : List Comp) : List Nat × List Nat :=
  stopAll (inputs ++ outputs ++ services)

/-! ### Characterisation of the element scan (`list.index`) -/

theorem scanFrom_some [DecidableEq α] {x : α} {ys : List α} :
    ∀ {i j : Nat}, scanFrom x ys i = some j →
      ∃ k, j = i + k ∧ ys[k]? = some x ∧ ∀ m, m < k → ys[m]? ≠ some x := by
  induction ys with
  | nil => intro i j h; simp [scanFrom] at h
  | cons y ys ih =>
    intro i j h
    simp only [scanFrom] at h
    by_cases hy : y = x
    · rw [if_pos hy, Option.some.injEq] at h
      subst h
      exact ⟨0, rfl, by simp [hy], fun m hm => absurd hm (Nat.not_lt_zero m)⟩
    · rw [if_neg hy] at h
      obtain ⟨k, hk, hget, hmin⟩ := ih h
      refine ⟨k + 1, by omega, by simpa using hget, ?_⟩
      intro m hm
      cases m with
      | zero => simpa using hy
      | succ m =>
        have h5 : m < k := by omega
        simpa using hmin m h5

theorem scanFrom_none [DecidableEq α] {x : α} {ys : List α} :
    ∀ {i : Nat}, scanFrom x ys i = none → ∀ k : Nat, ys[k]? ≠ some x := by
  induction ys with
  | nil => intro i _ k; simp
  | cons y ys ih =>
    intro i h k
    simp only [scanFrom] at h
    by_cases hy : y = x
    · rw [if_pos hy] at h
      exact absurd h (by simp)
    · rw [if_neg hy] at h
      cases k with
      | zero => simpa using hy
      | succ k => simpa using ih h k

theorem pyIndex_some [DecidableEq α] {l : List α} {x : α} {s i : Nat}
    (h : pyIndex l x s = some i) :
    s ≤ i ∧ i < l.length ∧ l[i]? = some x ∧
      ∀ j, s ≤ j → j < i → l[j]? ≠ some x := by
  obtain ⟨k, hk, hget, hmin⟩ := scanFrom_some h
  rw [List.getElem?_drop] at hget
  subst hk
  obtain ⟨hlt, -⟩ := List.getElem?_eq_some_iff.mp hget
  refine ⟨Nat.le_add_right .., hlt, hget, ?_⟩
  intro j hj hji
  have hm := hmin (j - s) (by omega)
  rw [List.getElem?_drop, Nat.add_sub_cancel' hj] at hm
  exact hm

theorem pyIndex_none [DecidableEq α] {l : List α} {x : α} {s : Nat}
    (h : pyIndex l x s = none) : ∀ j, s ≤ j → l[j]? ≠ some x := by
  intro j hj
  have hm := scanFrom_none h (j - s)
  rwa [List.getElem?_drop, Nat.add_sub_cancel' hj] at hm

/-! ### Characterisation of contiguous occurrence and of `findSub` -/

theorem matchesAt_nil (l : List α) (i : Nat) : matchesAt l [] i := by
  simp [matchesAt]

theorem matchesAt_cons {l : List α} {x : α} {rest : List α} {i : Nat} :
    matchesAt l (x :: rest) i ↔ l[i]? = some x ∧ matchesAt l rest (i + 1) := by
  unfold matchesAt
  cases hd : l.drop i with
  | nil =>
    have hlen : l.length ≤ i := List.drop_eq_nil_iff.mp hd
    have h1 : l[i]? = none := List.getElem?_eq_none hlen
    have h2 : l.drop (i + 1) = [] := List.drop_eq_nil_of_le (by omega)
    simp [h1, h2]
  | cons y ys =>
    have h0 : l[i]? = some y := by
      have hg := List.getElem?_drop l i 0
      rw [hd] at hg
      simpa using hg.symm
    have h1 : l.drop (i + 1) = ys := by
      rw [(List.drop_drop 1 i l).symm, hd]
      rfl
    rw [h0, h1]
    simp [List.take_succ_cons, eq_comm]

theorem matchesAt_single {l : List α} {x : α} {i : Nat} :
    matchesAt l [x] i ↔ l[i]? = some x := by
  rw [matchesAt_cons]
  simp [matchesAt_nil]

theorem matchesAt_lt_length {l sub : List α} (hne : sub ≠ []) {i : Nat}
    (h : matchesAt l sub i) : i < l.length := by
  cases sub with
  | nil => exact absurd rfl hne
  | cons x rest =>
    obtain ⟨hlt, -⟩ := List.getElem?_eq_some_iff.mp (matchesAt_cons.mp h).1
    exact hlt

theorem findSubAux_some [DecidableEq α] {l sub : List α} :
    ∀ {b i j : Nat}, findSubAux l sub b i = some j →
      i ≤ j ∧ j < i + b ∧ matchesAt l sub j ∧
        ∀ m, i ≤ m → m < j → ¬ matchesAt l sub m := by
  intro b
  induction b with
  | zero => intro i j h; simp [findSubAux] at h
  | succ b ih =>
    intro i j h
    simp only [findSubAux] at h
    by_cases hm : matchesAt l sub i
    · rw [if_pos hm, Option.some.injEq] at h
      subst h
      exact ⟨Nat.le_refl _, by omega, hm, fun m h1 h2 => absurd h1 (by omega)⟩
    · rw [if_neg hm] at h
      obtain ⟨h1, h2, h3, h4⟩ := ih h
      refine ⟨by omega, by omega, h3, ?_⟩
      intro m hm1 hm2
      rcases Nat.eq_or_lt_of_le hm1 with heq | hlt
      · subst heq; exact hm
      · exact h4 m (by omega) hm2

theorem findSubAux_none [DecidableEq α] {l sub : List α} :
    ∀ {b i : Nat}, findSubAux l sub b i = none →
      ∀ j, i ≤ j → j < i + b → ¬ matchesAt l sub j := by
  intro b
  induction b with
  | zero => intro i _ j h1 h2; exact absurd h2 (by omega)
  | succ b ih =>
    intro i h j h1 h2
    simp only [findSubAux] at h
    by_cases hm : matchesAt l sub i
    · rw [if_pos hm] at h; exact absurd h (by simp)
    · rw [if_neg hm] at h
      rcases Nat.eq_or_lt_of_le h1 with heq | hlt
      · subst heq; exact hm
      · exact ih h j (by omega) (by omega)

theorem findSub_some [DecidableEq α] {l sub : List α} {s j : Nat}
    (h : findSub l sub s = some j) :
    s ≤ j ∧ matchesAt l sub j ∧ ∀ m, s ≤ m → m < j → ¬ matchesAt l sub m := by
  obtain ⟨h1, _, h3, h4⟩ := findSubAux_some h
  exact ⟨h1, h3, h4⟩

theorem findSub_none [DecidableEq α] {l sub : List α} (hne : sub ≠ []) {s : Nat}
    (h : findSub l sub s = none) : ∀ j, s ≤ j → ¬ matchesAt l sub j := by
  intro j hj hmat
  have hlt := matchesAt_lt_length hne hmat
  exact findSubAux_none h j hj (by omega) hmat

theorem findSub_eq_some [DecidableEq α] {l sub : List α} (hne : sub ≠ []) {s j : Nat}
    (hj : s ≤ j) (hm : matchesAt l sub j)
    (hmin : ∀ m, s ≤ m → m < j → ¬ matchesAt l sub m) :
    findSub l sub s = some j := by
  cases h : findSub l sub s with
  | none => exact absurd hm (findSub_none hne h j hj)
  | some j' =>
    obtain ⟨h1, h2, h3⟩ := findSub_some h
    have hle1 : ¬ j' < j := fun hc => hmin j' h1 hc h2
    have hle2 : ¬ j < j' := fun hc => h3 j hj hc hm
    have : j = j' := by omega
    rw [this]

theorem findSub_shift [DecidableEq α] {l sub : List α} (hne : sub ≠ []) {s s' : Nat}
    (hss : s ≤ s')
    (hnone : ∀ m, s ≤ m → m < s' → ¬ matchesAt l sub m) :
    findSub l sub s = findSub l sub s' := by
  cases h' : findSub l sub s' with
  | some j =>
    obtain ⟨h1, h2, h3⟩ := findSub_some h'
    refine findSub_eq_some hne (by omega) h2 ?_
    intro m hm1 hm2
    by_cases hc : m < s'
    · exact hnone m hm1 hc
    · exact h3 m (by omega) hm2
  | none =>
    cases h : findSub l sub s with
    | none => rfl
    | some j =>
      obtain ⟨h1, h2, -⟩ := findSub_some h
      by_cases hc : j < s'
      · exact absurd h2 (hnone j h1 hc)
      · exact absurd h2 (findSub_none hne h' j (by omega))

theorem findSub_single [DecidableEq α] (l : List α) (x : α) (s : Nat) :
    findSub l [x] s = pyIndex l x s := by
  cases hp : pyIndex l x s with
  | some i =>
    obtain ⟨h1, _, h3, h4⟩ := pyIndex_some hp
    refine findSub_eq_some (by simp) h1 (matchesAt_single.mpr h3) ?_
    intro m hm1 hm2 hmat
    exact h4 m hm1 hm2 (matchesAt_single.mp hmat)
  | none =>
    cases h : findSub l [x] s with
    | none => rfl
    | some j =>
      obtain ⟨h1, h2, -⟩ := findSub_some h
      exact absurd (matchesAt_single.mp h2) (pyIndex_none hp j h1)

/-! ### Correctness and termination of the fueled `_list_index` -/

theorem list_indexF_single [DecidableEq α] (l : List α) (x : α) (s : Nat)
    {fuel : Nat} (hf : 1 ≤ fuel) :
    list_indexF fuel l [x] s = some (listIndexSpec l [x] s) := by
  cases fuel with
  | zero => exact absurd hf (by omega)
  | succ f =>
    simp only [list_indexF]
    rw [show pyIndex l x s = findSub l [x] s from (findSub_single l x s).symm]
    cases hfs : findSub l [x] s with
    | some i => simp [listIndexSpec, hfs]
    | none => simp [listIndexSpec, hfs]

theorem searchLoopF_eq [DecidableEq α] {l : List α} {x : α} {rest : List α}
    (hne : rest ≠ [])
    (IHr : ∀ start fuel : Nat, rest.length * (l.length + 3) ≤ fuel →
      list_indexF fuel l rest start = some (listIndexSpec l rest start)) :
    ∀ n offset fuel : Nat, l.length + 1 - offset ≤ n →
      (l.length + 1 - offset) + rest.length * (l.length + 3) + 1 ≤ fuel →
      searchLoopF fuel l x rest offset =
        some (listIndexSpec l (x :: rest) offset) := by
  intro n
  induction n using Nat.strong_induction_on with
  | _ n ihn =>
    intro offset fuel hn hfuel
    have hpos : 0 < rest.length := List.length_pos.mpr hne
    have hA : l.length + 3 ≤ rest.length * (l.length + 3) :=
      Nat.le_mul_of_pos_left _ hpos
    cases fuel with
    | zero => exact absurd hfuel (by omega)
    | succ f =>
      simp only [searchLoopF]
      rw [list_indexF_single l x offset (by omega)]
      cases hfs : findSub l [x] offset with
      | none =>
        simp only [listIndexSpec, hfs]
        have hnone : findSub l (x :: rest) offset = none := by
          cases hq : findSub l (x :: rest) offset with
          | none => rfl
          | some j =>
            obtain ⟨hj1, hj2, -⟩ := findSub_some hq
            have hx := (matchesAt_cons.mp hj2).1
            exact absurd (matchesAt_single.mpr hx)
              (findSub_none (List.cons_ne_nil x []) hfs j hj1)
        simp [listIndexSpec, hnone]
      | some first =>
        simp only [listIndexSpec, hfs]
        obtain ⟨hf1, hf2, hf3⟩ := findSub_some hfs
        have hx : l[first]? = some x := matchesAt_single.mp hf2
        obtain ⟨hflt, -⟩ := List.getElem?_eq_some_iff.mp hx
        rw [IHr (first + 1) f (by omega)]
        cases hfr : findSub l rest (first + 1) with
        | none =>
          simp only [listIndexSpec, hfr]
          have hnone : findSub l (x :: rest) offset = none := by
            cases hq : findSub l (x :: rest) offset with
            | none => rfl
            | some j =>
              obtain ⟨hj1, hj2, -⟩ := findSub_some hq
              obtain ⟨hjx, hjrest⟩ := matchesAt_cons.mp hj2
              have hjge : first ≤ j := by
                by_contra hc
                exact hf3 j hj1 (by omega) (matchesAt_single.mpr hjx)
              exact absurd hjrest (findSub_none hne hfr (j + 1) (by omega))
          simp [listIndexSpec, hnone]
        | some restIdx =>
          simp only [listIndexSpec, hfr]
          obtain ⟨hr1, hr2, hr3⟩ := findSub_some hfr
          by_cases hadj : first + 1 = restIdx
          · rw [if_pos hadj]
            have hocc : matchesAt l (x :: rest) first :=
              matchesAt_cons.mpr ⟨hx, hadj ▸ hr2⟩
            have hmin : ∀ m, offset ≤ m → m < first → ¬ matchesAt l (x :: rest) m := by
              intro m hm1 hm2 hc
              exact hf3 m hm1 hm2 (matchesAt_single.mpr (matchesAt_cons.mp hc).1)
            have heq : findSub l (x :: rest) offset = some first :=
              findSub_eq_some (List.cons_ne_nil x rest) hf1 hocc hmin
            simp [listIndexSpec, heq]
          · rw [if_neg hadj]
            have hrec := ihn (l.length + 1 - (first + 1)) (by omega) (first + 1) f
              (Nat.le_refl _) (by omega)
            rw [hrec]
            have hshift : findSub l (x :: rest) offset =
                findSub l (x :: rest) (first + 1) := by
              refine findSub_shift (List.cons_ne_nil x rest) (by omega) ?_
              intro m hm1 hm2 hc
              obtain ⟨hcx, hcrest⟩ := matchesAt_cons.mp hc
              by_cases hcm : m < first
              · exact hf3 m hm1 hcm (matchesAt_single.mpr hcx)
              · have hmf : m = first := by omega
                rw [hmf] at hcrest
                exact hr3 (first + 1) (Nat.le_refl _) (by omega) hcrest
            simp [listIndexSpec, hshift]

theorem list_indexF_eq [DecidableEq α] {l : List α} :
    ∀ (n : Nat) (sub : List α), sub.length ≤ n → sub ≠ [] →
      ∀ start fuel : Nat, sub.length * (l.length + 3) ≤ fuel →
      list_indexF fuel l sub start = some (listIndexSpec l sub start) := by
  intro n
  induction n with
  | zero =>
    intro sub hl hne
    cases sub with
    | nil => exact absurd rfl hne
    | cons a t => simp at hl
  | succ n ih =>
    intro sub hl hne start fuel hfuel
    match sub, hne with
    | [x], _ =>
      refine list_indexF_single l x start ?_
      have : 0 < l.length + 3 := by omega
      simp only [List.length_singleton, Nat.one_mul] at hfuel
      omega
    | x :: y :: rest, _ =>
      have hkey : (x :: y :: rest).length * (l.length + 3) =
          (y :: rest).length * (l.length + 3) + (l.length + 3) := by
        simp [List.length_cons, Nat.succ_mul]
      have hA : l.length + 3 ≤ (y :: rest).length * (l.length + 3) :=
        Nat.le_mul_of_pos_left _ (by simp)
      cases fuel with
      | zero =>
        rw [hkey] at hfuel
        exact absurd hfuel (by omega)
      | succ f =>
        simp only [list_indexF]
        refine searchLoopF_eq (List.cons_ne_nil y rest)
          (fun s fl hfl => ih (y :: rest) (by simpa using hl) (List.cons_ne_nil y rest) s fl hfl)
          (l.length + 1 - start) start f (Nat.le_refl _) ?_
        rw [hkey] at hfuel
        generalize hAB : (y :: rest).length * (l.length + 3) = A at hfuel hA ⊢
        omega

theorem list_indexF_nil [DecidableEq α] (l : List α) (start : Nat)
    {fuel : Nat} (hf : 1 ≤ fuel) :
    list_indexF fuel l ([] : List α) start = some (Except.error PyErr.nameError) := by
  cases fuel with
  | zero => exact absurd hf (by omega)
  | succ f => simp [list_indexF]

theorem fuelFor_pos (l sub : List α) : 1 ≤ fuelFor l sub := by
  unfold fuelFor
  have h1 : 1 ≤ sub.length + 1 := by omega
  have h2 : 1 ≤ l.length + 3 := by omega
  calc 1 = 1 * 1 := by omega
  _ ≤ (sub.length + 1) * (l.length + 3) := Nat.mul_le_mul h1 h2

theorem list_index_eq [DecidableEq α] (l sub : List α) (hne : sub ≠ []) (start : Nat) :
    list_index l sub start = listIndexSpec l sub start := by
  unfold list_index
  rw [list_indexF_eq sub.length sub (Nat.le_refl _) hne start (fuelFor l sub)
    (Nat.mul_le_mul_right _ (Nat.le_succ _))]
  rfl

theorem list_index_nil [DecidableEq α] (l : List α) (start : Nat) :
    list_index l ([] : List α) start = Except.error PyErr.nameError := by
  unfold list_index
  rw [list_indexF_nil l start (fuelFor_pos l [])]
  rfl

/-! ### The key-phrase detection fold -/

theorem detectOffset_eq {words : List String} :
    ∀ (phrases : List (List String)), (∀ p ∈ phrases, p ≠ []) →
      ∀ acc : Option Nat,
      detectOffset phrases words acc = Except.ok
        (phrases.foldl
          (fun a p =>
            match findSub words p 0 with
            | some i => some (i + p.length)
            | none => a)
          acc) := by
  intro phrases
  induction phrases with
  | nil => intro _ acc; rfl
  | cons p ps ih =>
    intro hne acc
    have hp : p ≠ [] := hne p (List.mem_cons_self p ps)
    have hrest : ∀ q ∈ ps, q ≠ [] := fun q hq => hne q (List.mem_cons_of_mem p hq)
    simp only [detectOffset, List.foldl_cons]
    rw [list_index_eq words p hp 0]
    cases hfs : findSub words p 0 with
    | some i =>
      simp only [listIndexSpec, hfs]
      exact ih hrest (some (i + p.length))
    | none =>
      simp only [listIndexSpec, hfs]
      exact ih hrest acc

theorem detectOffset_nameError {words : List String} :
    ∀ (ps₁ : List (List String)) (ps₂ : List (List String)) (acc : Option Nat),
      (∀ p ∈ ps₁, p ≠ []) →
      detectOffset (ps₁ ++ [] :: ps₂) words acc = Except.error PyErr.nameError := by
  intro ps₁
  induction ps₁ with
  | nil =>
    intro ps₂ acc _
    simp only [List.nil_append, detectOffset]
    rw [list_index_nil]
  | cons p ps ih =>
    intro ps₂ acc hne
    have hp : p ≠ [] := hne p (List.mem_cons_self p ps)
    have hrest : ∀ q ∈ ps, q ≠ [] := fun q hq => hne q (List.mem_cons_of_mem p hq)
    simp only [List.cons_append, detectOffset]
    rw [list_index_eq words p hp 0]
    cases hfs : findSub words p 0 with
    | some i => simp only [listIndexSpec, hfs]; exact ih ps₂ _ hrest
    | none => simp only [listIndexSpec, hfs]; exact ih ps₂ _ hrest

theorem specFold_none_iff {words : List String} :
    ∀ (phrases : List (List String)) (acc : Option Nat),
      phrases.foldl
        (fun a p =>
          match findSub words p 0 with
          | some i => some (i + p.length)
          | none => a)
        acc = none
      ↔ acc = none ∧ ∀ p ∈ phrases, findSub words p 0 = none := by
  intro phrases
  induction phrases with
  | nil => intro acc; simp
  | cons p ps ih =>
    intro acc
    simp only [List.foldl_cons]
    rw [ih]
    cases hfs : findSub words p 0 with
    | some i =>
      simp only [hfs]
      constructor
      · rintro ⟨h, -⟩; exact absurd h (by simp)
      · rintro ⟨-, hall⟩
        exact absurd (hall p (List.mem_cons_self p ps)) (by simp [hfs])
    | none =>
      simp only [hfs]
      constructor
      · rintro ⟨h1, h2⟩
        refine ⟨h1, ?_⟩
        intro q hq
        rcases List.mem_cons.mp hq with rfl | hq'
        · exact hfs
        · exact h2 q hq'
      · rintro ⟨h1, h2⟩
        exact ⟨h1, fun q hq => h2 q (List.mem_cons_of_mem p hq)⟩

theorem specFold_all_none {words : List String} :
    ∀ (phrases : List (List String)) (acc : Option Nat),
      (∀ p ∈ phrases, findSub words p 0 = none) →
      phrases.foldl
        (fun a p =>
          match findSub words p 0 with
          | some i => some (i + p.length)
          | none => a)
        acc = acc := by
  intro phrases
  induction phrases with
  | nil => intro acc _; rfl
  | cons p ps ih =>
    intro acc hall
    simp only [List.foldl_cons]
    rw [hall p (List.mem_cons_self p ps)]
    exact ih acc (fun q hq => hall q (List.mem_cons_of_mem p hq))

/-! ### The ranked-handler execution loop -/

theorem runHandlers_eq :
    ∀ (hs : List Handler) (resp : String),
      runHandlers hs resp =
        (resp ++ specResponse hs,
         (specCut hs).map Handler.hid,
         (specCut hs).filter raisesB) := by
  intro hs
  induction hs with
  | nil => intro resp; simp [runHandlers, specResponse, specCut]
  | cons h hs ih =>
    intro resp
    cases hr : h.handleR with
    | error e =>
      simp [runHandlers, hr, specResponse, specCut, ih, raisesB, List.filter_cons]
    | ok o =>
      cases o with
      | none =>
        simp [runHandlers, hr, specResponse, specCut, ih, raisesB, List.filter_cons]
      | some res =>
        by_cases hex : res.is_exclusive
        · cases ht : res.text with
          | none =>
            simp [runHandlers, hr, ht, hex, specResponse, specCut, raisesB,
              List.filter_cons, Option.getD]
          | some t =>
            simp [runHandlers, hr, ht, hex, specResponse, specCut, raisesB,
              List.filter_cons, Option.getD]
        · cases ht : res.text with
          | none =>
            simp [runHandlers, hr, ht, hex, specResponse, specCut, raisesB,
              List.filter_cons, ih, Option.getD]
          | some t =>
            simp [runHandlers, hr, ht, hex, specResponse, specCut, raisesB,
              List.filter_cons, ih, Option.getD, String.append_assoc]

/-! ### The shutdown loop -/

theorem stopAll_eq :
    ∀ cs : List Comp,
      stopAll cs = (cs.map Comp.cid, (cs.filter stopFails).map Comp.cid) := by
  intro cs
  induction cs with
  | nil => rfl
  | cons c cs ih =>
    cases hr : c.stopR with
    | ok u => simp [stopAll, hr, ih, stopFails, List.filter_cons]
    | error e => simp [stopAll, hr, ih, stopFails, List.filter_cons]

/-! ### Outcome of `_handle` after successful detection -/

theorem handle_detected (phrases : List (List String)) (services : List Service)
    (tokens : List Token) (o : Nat)
    (hdet : detectOffset phrases (wordsOf tokens) none = Except.ok (some o)) :
    (handle phrases services (some tokens)).forwarded = some (tokens.drop o) ∧
    (handle phrases services (some tokens)).evaluated = services.map Service.sid := by
  simp only [handle, hdet]
  by_cases hlen :
      (services.filterMap (fun s => s.evaluate (tokens.drop o))).length = 0
  · simp [hlen]
  · simp [hlen]

theorem handle_result_apology (phrases : List (List String)) (services : List Service)
    (tokens : List Token) (o : Nat)
    (hdet : detectOffset phrases (wordsOf tokens) none = Except.ok (some o))
    (hnoh : services.filterMap (fun s => s.evaluate (tokens.drop o)) = []) :
    (handle phrases services (some tokens)).result =
      Except.ok (some apologyString) := by
  simp only [handle, hdet]
  simp [hnoh]

theorem handle_result_empty (phrases : List (List String)) (services : List Service)
    (tokens : List Token) (o : Nat)
    (hdet : detectOffset phrases (wordsOf tokens) none = Except.ok (some o))
    (hh : services.filterMap (fun s => s.evaluate (tokens.drop o)) ≠ [])
    (hresp :
      (runHandlers
        (rankHandlers (services.filterMap (fun s => s.evaluate (tokens.drop o))))
        "").1 = "") :
    (handle phrases services (some tokens)).result = Except.ok none := by
  simp only [handle, hdet]
  rw [if_neg (by simpa [List.length_eq_zero] using hh)]
  simp [hresp]

/-! ### The claims -/

/-- C1: `_list_index` performs exact contiguous ordered-sublist search.
For every word list, non-empty sublist and start index, it returns `i`
exactly when `i` is the least index `≥ start` at which the sublist occurs
contiguously under exact word equality (a length-1 search being the first
equal element at or after start); in particular on words `[a,b,a,b,c]` with
phrase `(a,b)`, searching from 0 returns 0 and searching from 1 returns 2. -/
theorem c1_sublist_search_correct [DecidableEq α] (l sub : List α) (start : Nat)
    (hne : sub ≠ []) :
    (∀ i : Nat, list_index l sub start = Except.ok i ↔
      (start ≤ i ∧ matchesAt l sub i ∧
        ∀ j : Nat, start ≤ j → j < i → ¬ matchesAt l sub j)) ∧
    list_index ["a", "b", "a", "b", "c"] ["a", "b"] 0 = Except.ok 0 ∧
    list_index ["a", "b", "a", "b", "c"] ["a", "b"] 1 = Except.ok 2 := by
  refine ⟨?_, by decide, by decide⟩
  intro i
  rw [list_index_eq l sub hne start]
  unfold listIndexSpec
  cases hfs : findSub l sub start with
  | some j =>
    obtain ⟨h1, h2, h3⟩ := findSub_some hfs
    constructor
    · intro he
      have hji : j = i := by injection he
      subst hji
      exact ⟨h1, h2, h3⟩
    · rintro ⟨hi1, hi2, hi3⟩
      have hsome : findSub l sub start = some i := findSub_eq_some hne hi1 hi2 hi3
      rw [hfs] at hsome
      have : j = i := by injection hsome
      rw [this]
  | none =>
    constructor
    · intro he
      exact absurd he (by simp)
    · rintro ⟨hi1, hi2, -⟩
      exact absurd hi2 (findSub_none hne hfs i hi1)

/-- Witness for C1 at the spec's own example. -/
theorem c1_witness :
    ((["a", "b"] : List String) ≠ []) ∧
      list_index ["a", "b", "a", "b", "c"] ["a", "b"] 1 = Except.ok 2 :=
  ⟨by decide,
    (c1_sublist_search_correct ["a", "b", "a", "b", "c"] ["a", "b"] 1 (by decide)).2.2⟩

/-- C3: handler ranking is a stable sort by descending belief: the ranked
list is sorted by `≥` on belief, is a permutation of the collected handler
list, keeps the relative order of any two handlers whose beliefs are already
in descending-or-equal order (so ties keep evaluation order), and on beliefs
[0.2, 0.9, 0.5] produces the order [0.9, 0.5, 0.2]. -/
theorem c3_ranking_stable_descending (hs : List Handler) :
    List.Pairwise (fun a b => b.belief ≤ a.belief) (rankHandlers hs) ∧
    List.Perm (rankHandlers hs) hs ∧
    (∀ a b : Handler, List.Sublist [a, b] hs → b.belief ≤ a.belief →
      List.Sublist [a, b] (rankHandlers hs)) ∧
    rankHandlers
        [⟨1, 2/10, [], "s1", Except.ok none⟩, ⟨2, 9/10, [], "s2", Except.ok none⟩,
         ⟨3, 5/10, [], "s3", Except.ok none⟩] =
      [⟨2, 9/10, [], "s2", Except.ok none⟩, ⟨3, 5/10, [], "s3", Except.ok none⟩,
       ⟨1, 2/10, [], "s1", Except.ok none⟩] := by
  have htrans : ∀ a b c : Handler, beliefGE a b → beliefGE b c → beliefGE a c := by
    intro a b c h1 h2
    simp only [beliefGE, decide_eq_true_eq] at h1 h2 ⊢
    exact le_trans h2 h1
  have htotal : ∀ a b : Handler, beliefGE a b || beliefGE b a := by
    intro a b
    simp only [beliefGE, Bool.or_eq_true, decide_eq_true_eq]
    exact le_total b.belief a.belief
  refine ⟨?_, List.mergeSort_perm hs beliefGE, ?_, ?_⟩
  · refine (List.sorted_mergeSort htrans htotal hs).imp ?_
    intro a b h
    simpa [beliefGE] using h
  · intro a b hsub hle
    exact List.pair_sublist_mergeSort htrans htotal
      (by simpa [beliefGE] using hle) hsub
  · norm_num [rankHandlers, beliefGE, List.mergeSort]

/-- C4: handlers are invoked in ranked order, the texts of successful
results are concatenated in that order into one response, and the first
exclusive result stops the iteration so no lower-ranked handler's `handle()`
is invoked: in particular [H1(text="a", exclusive), H2(text="b")] yields
"a" with only H1 invoked, and [H1(text="a"), H2(text="b", exclusive)]
yields "ab". -/
theorem c4_exclusivity_and_concatenation :
    (∀ (hs : List Handler) (resp : String),
      runHandlers hs resp =
        (resp ++ specResponse hs,
         (specCut hs).map Handler.hid,
         (specCut hs).filter raisesB)) ∧
    runHandlers
        [⟨1, 1, [], "s1", Except.ok (some ⟨some "a", true⟩)⟩,
         ⟨2, 1, [], "s2", Except.ok (some ⟨some "b", false⟩)⟩] "" =
      ("a", [1], []) ∧
    runHandlers
        [⟨1, 1, [], "s1", Except.ok (some ⟨some "a", false⟩)⟩,
         ⟨2, 1, [], "s2", Except.ok (some ⟨some "b", true⟩)⟩] "" =
      ("ab", [1, 2], []) :=
  ⟨runHandlers_eq, by decide, by decide⟩

/-- C7: a handler whose `handle()` raises does not abort the cycle: the
handler (carrying its tokens and owning service) is added to the error log,
and the remaining ranked handlers are processed exactly as they would have
been without it, still producing the accumulated response. -/
theorem c7_handler_exception_isolated (h : Handler) (hs : List Handler)
    (resp : String) (hraise : h.handleR = Except.error ()) :
    runHandlers (h :: hs) resp =
      ((runHandlers hs resp).1,
       h.hid :: (runHandlers hs resp).2.1,
       h :: (runHandlers hs resp).2.2) := by
  simp [runHandlers, hraise]

/-- Witness for C7: `[H1(raises), H2(text="ok")]` produces response "ok",
both handlers invoked, H1 logged. -/
theorem c7_witness :
    runHandlers
        [⟨1, 1, [], "s1", Except.error ()⟩,
         ⟨2, 1, [], "s2", Except.ok (some ⟨some "ok", false⟩)⟩] "" =
      ("ok", [1, 2], [⟨1, 1, [], "s1", Except.error ()⟩]) := by
  rw [c7_handler_exception_isolated _ _ _ rfl]
  decide

/-- C8: shutdown is best-effort: `stop()` is invoked on every configured
component, inputs then outputs then services, even when earlier `stop()`
calls raise; raised exceptions are caught and logged and do not prevent the
remaining components from being stopped. -/
theorem c8_stop_best_effort (inputs outputs services : List Comp) :
    (dexterStop inputs outputs services).1 =
      (inputs ++ outputs ++ services).map Comp.cid ∧
    (dexterStop inputs outputs services).2 =
      ((inputs ++ outputs ++ services).filter stopFails).map Comp.cid := by
  unfold dexterStop
  rw [stopAll_eq]
  exact ⟨rfl, rfl⟩

/-- C9 (counter-evidence for the claim): a non-empty configured phrase with
no letters sanitises to the empty word sequence, and dispatching a batch
then makes `_handle` raise: the misspelled `ValuError` in `_list_index`
surfaces as an uncaught `NameError` (no phrase matching, no service
evaluation, no response), instead of the phrase being treated as
unmatchable. -/
theorem c9_empty_phrase_raises :
    parse_key_phrase "123" = [] ∧
    handle [parse_key_phrase "123"] [] (some [⟨"hello"⟩]) =
      ⟨Except.error PyErr.nameError, none, [], [], []⟩ :=
  ⟨by decide, by decide⟩

/-- C10: the sublist search terminates: with the explicit step budget
`fuelFor` the fueled embedding of `_list_index` always completes with a
result (a found index or a raised error) for every finite word list,
non-empty sublist and start index. -/
theorem c10_list_index_terminates [DecidableEq α] (l sub : List α) (start : Nat)
    (hne : sub ≠ []) :
    ∃ r : Except PyErr Nat, list_indexF (fuelFor l sub) l sub start = some r :=
  ⟨listIndexSpec l sub start,
    list_indexF_eq sub.length sub (Nat.le_refl _) hne start (fuelFor l sub)
      (Nat.mul_le_mul_right _ (Nat.le_succ _))⟩

/-- Witness for C10 at a concrete search. -/
theorem c10_witness :
    (([1] : List Nat) ≠ []) ∧
      ∃ r : Except PyErr Nat, list_indexF (fuelFor [0, 1] [1]) [0, 1] [1] 0 = some r :=
  ⟨by decide, c10_list_index_terminates [0, 1] [1] 0 (by decide)⟩

/-- C2: when the sanitised lowercase word projection of the batch contains
configured key-phrases, the last phrase in configuration order that occurs
determines the cut: detection succeeds with offset equal to the index
immediately following the end of that phrase's occurrence, every configured
service is evaluated (in order) exactly on the original tokens from that
offset on, and the tokens before the offset are dropped. -/
theorem c2_last_phrase_determines_cut
    (ps₁ ps₂ : List (List String)) (p : List String) (services : List Service)
    (tokens : List Token) (i : Nat)
    (hne : ∀ q ∈ ps₁ ++ p :: ps₂, q ≠ [])
    (hp : findSub (wordsOf tokens) p 0 = some i)
    (hlast : ∀ q ∈ ps₂, findSub (wordsOf tokens) q 0 = none) :
    detectOffset (ps₁ ++ p :: ps₂) (wordsOf tokens) none =
      Except.ok (some (i + p.length)) ∧
    (handle (ps₁ ++ p :: ps₂) services (some tokens)).forwarded =
      some (tokens.drop (i + p.length)) ∧
    (handle (ps₁ ++ p :: ps₂) services (some tokens)).evaluated =
      services.map Service.sid := by
  have hdet : detectOffset (ps₁ ++ p :: ps₂) (wordsOf tokens) none =
      Except.ok (some (i + p.length)) := by
    rw [detectOffset_eq (ps₁ ++ p :: ps₂) hne none]
    congr 1
    rw [List.foldl_append]
    simp only [List.foldl_cons, hp]
    exact specFold_all_none ps₂ _ hlast
  obtain ⟨h1, h2⟩ := handle_detected (ps₁ ++ p :: ps₂) services tokens (i + p.length) hdet
  exact ⟨hdet, h1, h2⟩

/-- Witness for C2: phrase "hey dexter" is the last matching phrase; the
tokens after it are forwarded. -/
theorem c2_witness :
    detectOffset [["x"], ["hey", "dexter"], ["zz"]]
        (wordsOf [⟨"Hey"⟩, ⟨"Dexter!"⟩, ⟨"now"⟩]) none =
      Except.ok (some 2) ∧
    (handle [["x"], ["hey", "dexter"], ["zz"]] []
        (some [⟨"Hey"⟩, ⟨"Dexter!"⟩, ⟨"now"⟩])).forwarded = some [⟨"now"⟩] ∧
    (handle [["x"], ["hey", "dexter"], ["zz"]] []
        (some [⟨"Hey"⟩, ⟨"Dexter!"⟩, ⟨"now"⟩])).evaluated = [] :=
  c2_last_phrase_determines_cut [["x"]] [["zz"]] ["hey", "dexter"] []
    [⟨"Hey"⟩, ⟨"Dexter!"⟩, ⟨"now"⟩] 0 (by decide) (by decide) (by decide)

/-- C5: after a detected key-phrase, the fixed apology is returned exactly
when no service produced a handler; when handlers exist but the accumulated
response text is empty, the cycle returns no response rather than the
apology. -/
theorem c5_apology_only_without_handlers
    (phrases : List (List String)) (services : List Service)
    (tokens : List Token) (o : Nat)
    (hdet : detectOffset phrases (wordsOf tokens) none = Except.ok (some o)) :
    (services.filterMap (fun s => s.evaluate (tokens.drop o)) = [] →
      (handle phrases services (some tokens)).result =
        Except.ok (some apologyString)) ∧
    (services.filterMap (fun s => s.evaluate (tokens.drop o)) ≠ [] →
      (runHandlers
          (rankHandlers (services.filterMap (fun s => s.evaluate (tokens.drop o))))
          "").1 = "" →
      (handle phrases services (some tokens)).result = Except.ok none) :=
  ⟨fun hnoh => handle_result_apology phrases services tokens o hdet hnoh,
   fun hh hresp => handle_result_empty phrases services tokens o hdet hh hresp⟩

/-- Witness for C5: with no claiming service the apology is returned; with a
claiming handler whose result has no text, no response is returned. -/
theorem c5_witness :
    (handle [["go"]] [] (some [⟨"go"⟩])).result =
      Except.ok (some apologyString) ∧
    (handle [["go"]]
        [⟨0, fun _ => some ⟨1, 1, [], "s", Except.ok (some ⟨none, false⟩)⟩⟩]
        (some [⟨"go"⟩])).result = Except.ok none :=
  ⟨(c5_apology_only_without_handlers [["go"]] [] [⟨"go"⟩] 1 (by decide)).1 (by decide),
   (c5_apology_only_without_handlers [["go"]]
      [⟨0, fun _ => some ⟨1, 1, [], "s", Except.ok (some ⟨none, false⟩)⟩⟩]
      [⟨"go"⟩] 1 (by decide)).2 (by simp)
      (by simp [rankHandlers, runHandlers])⟩

/-- C6: a batch in which no configured key-phrase occurs is discarded
without error: the cycle produces no response, forwards nothing, invokes no
service's `evaluate`, runs no handler and logs no error. -/
theorem c6_no_phrase_discards_batch
    (phrases : List (List String)) (services : List Service)
    (tokens : List Token)
    (habs : ∀ p ∈ phrases, ∀ i : Nat, ¬ matchesAt (wordsOf tokens) p i) :
    handle phrases services (some tokens) = ⟨Except.ok none, none, [], [], []⟩ := by
  have hne : ∀ p ∈ phrases, p ≠ [] := by
    intro p hp hnil
    exact habs p hp 0 (hnil ▸ matchesAt_nil (wordsOf tokens) 0)
  have hfs : ∀ p ∈ phrases, findSub (wordsOf tokens) p 0 = none := by
    intro p hp
    cases h : findSub (wordsOf tokens) p 0 with
    | none => rfl
    | some j =>
      obtain ⟨-, h2, -⟩ := findSub_some h
      exact absurd h2 (habs p hp j)
  have hdet : detectOffset phrases (wordsOf tokens) none = Except.ok none := by
    rw [detectOffset_eq phrases hne none, specFold_all_none phrases none hfs]
  simp [handle, hdet]

/-- Witness for C6: "hey dexter" does not occur in the single-token batch
"hello", so the batch is discarded with an all-empty outcome. -/
theorem c6_witness :
    handle [["hey", "dexter"]] [] (some [⟨"hello"⟩]) =
      ⟨Except.ok none, none, [], [], []⟩ := by
  refine c6_no_phrase_discards_batch [["hey", "dexter"]] [] [⟨"hello"⟩] ?_
  intro p hp i hm
  rw [List.mem_singleton] at hp
  subst hp
  have hlen := congrArg List.length hm
  simp [matchesAt, List.length_take, List.length_drop, wordsOf] at hlen
  omega

/-- Witness for C3: two handlers with equal beliefs keep their evaluation
order in the ranked list. -/
theorem c3_witness :
    List.Sublist
      [⟨1, 1, [], "s1", Except.ok none⟩, ⟨2, 1, [], "s2", Except.ok none⟩]
      (rankHandlers
        [⟨1, 1, [], "s1", Except.ok none⟩, ⟨2, 1, [], "s2", Except.ok none⟩]) :=
  (c3_ranking_stable_descending
      [⟨1, 1, [], "s1", Except.ok none⟩, ⟨2, 1, [], "s2", Except.ok none⟩]).2.2.1
    ⟨1, 1, [], "s1", Except.ok none⟩ ⟨2, 1, [], "s2", Except.ok none⟩
    (List.Sublist.refl _) (le_refl _)
